import Mathlib

/-
Verification development for the Content_Aggregator repository (src/app.py).

Strings are modelled as `List Char`.  Python string operations used by the
code (`str.lower`, the `in` substring test, `str.count` with its
non-overlapping left-to-right semantics, `str.strip`, slicing `[:n]`) are
embedded below.  Relevance scores, computed in Python as
`min(count / 10.0, 1.0)`, are modelled over `ℚ` with the same formula.

The database-facing parts of the pipeline (`run_content_scraping`) are
embedded as explicit state passing over a `DB` record.  SQLAlchemy session
semantics are modelled as follows: within one source's `try` block all
writes (including `db.session.flush()`) act on a pending copy of the store
that queries in the same session observe; `db.session.commit()` publishes
it, and any failure inside the block reaches the `except` handler, whose
`db.session.rollback()` discards the whole pending unit.  Failure injection
is an environment predicate per source id (`Env.persistFails`).

Network and third-party parsing (requests, BeautifulSoup, feedparser) are
the environment boundary: `Env.fetchHtml` yields, per URL, either a fetch
failure (`none`, covering the raised-and-caught exception path of
`scrape_website`) or the parsed page — its post script/style-removal
full text (`soup.get_text()`), its optional `<title>` text, and the result
of `extract_article_content(soup)` whose CSS-selector internals live inside
BeautifulSoup.  `Env.fetchFeed` yields the parsed feed entry list
(`feedparser.parse(...).entries`); a failing or malformed feed is the
empty list, matching the `except` branch of `scrape_rss`.
-/

/-- Convert a Lean string literal to the `List Char` representation. -/
def chars (s : String) : List Char := s.data

/-- Python `str.lower()`, character by character. -/
def lower (s : List Char) : List Char := s.map Char.toLower

/-- Python `str.strip()`: remove leading and trailing whitespace. -/
def pyStrip (s : List Char) : List Char :=
  ((s.dropWhile Char.isWhitespace).reverse.dropWhile Char.isWhitespace).reverse

/-- Python substring test `p in s`. -/
def containsSub (p : List Char) : List Char → Bool
  | [] => p.isEmpty
  | c :: rest => p.isPrefixOf (c :: rest) || containsSub p rest

/-- Worker for `countPy` on a non-empty pattern: scan left to right; a
match at the current position is counted and the scan skips the rest of
the matched occurrence (the `skip` counter), giving Python's
non-overlapping `str.count` semantics. -/
def countOccAux (p : List Char) : List Char → Nat → Nat
  | [], _ => 0
  | _ :: rest, Nat.succ k => countOccAux p rest k
  | c :: rest, 0 =>
      if p.isPrefixOf (c :: rest) then Nat.succ (countOccAux p rest (p.length - 1))
      else countOccAux p rest 0

/-- Python `s.count(p)`: non-overlapping occurrences, and `len(s) + 1`
for the empty pattern. -/
def countPy (p s : List Char) : Nat :=
  if p.isEmpty then s.length + 1 else countOccAux p s 0

/-- Row of the `Keyword` model (id, term, active). -/
structure Keyword where
  id : Nat
  term : List Char
  active : Bool
deriving DecidableEq, Repr

/-- `ContentScraper.check_keyword_matches`: for each keyword whose
lowered term occurs in the lowered content, append a match whose score is
`min(count / 10.0, 1.0)`. -/
def check_keyword_matches (content : List Char) (keywords : List Keyword) :
    List (Keyword × ℚ) :=
  let content_lower := lower content
  keywords.foldl
    (fun ms keyword =>
      if containsSub (lower keyword.term) content_lower then
        ms ++
          [(keyword, min ((countPy (lower keyword.term) content_lower : ℚ) / 10) 1)]
      else ms)
    []

/-- The score `check_keyword_matches` computes for one keyword. -/
def matchScore (content : List Char) (k : Keyword) : ℚ :=
  min ((countPy (lower k.term) (lower content) : ℚ) / 10) 1

theorem countPy_of_not_isEmpty {p : List Char} (h : p.isEmpty = false)
    (s : List Char) : countPy p s = countOccAux p s 0 := by
  simp [countPy, h]

theorem containsSub_iff_one_le_countPy (p s : List Char) :
    containsSub p s = true ↔ 1 ≤ countPy p s := by
  cases hp : p.isEmpty with
  | true =>
      have hpe : p = [] := by cases p <;> simp_all [List.isEmpty]
      subst hpe
      constructor
      · intro _; simp [countPy]
      · intro _
        cases s with
        | nil => simp [containsSub]
        | cons c rest => simp [containsSub, List.isPrefixOf]
  | false =>
      rw [countPy_of_not_isEmpty hp]
      induction s with
      | nil =>
          constructor
          · intro h
            cases p with
            | nil => simp [List.isEmpty] at hp
            | cons a as => simp [containsSub, List.isEmpty] at h
          · intro h; simp [countOccAux] at h
      | cons c rest ih =>
          constructor
          · intro h
            simp only [containsSub, Bool.or_eq_true] at h
            cases h with
            | inl h => simp [countOccAux, h]
            | inr h =>
                have hrest := ih.mp h
                simp only [countOccAux]
                cases hpre : p.isPrefixOf (c :: rest) with
                | true => simp
                | false => simpa using hrest
          · intro h
            simp only [containsSub, Bool.or_eq_true]
            simp only [countOccAux] at h
            cases hpre : p.isPrefixOf (c :: rest) with
            | true => exact Or.inl rfl
            | false =>
                rw [hpre] at h
                simp only [Bool.false_eq_true, if_false] at h
                exact Or.inr (ih.mpr h)

theorem check_keyword_matches_eq_filterMap
    (content : List Char) (keywords : List Keyword) :
    check_keyword_matches content keywords =
      keywords.filterMap (fun k =>
        if containsSub (lower k.term) (lower content) then
          some (k, matchScore content k)
        else none) := by
  unfold check_keyword_matches matchScore
  suffices h : ∀ (l : List Keyword) (acc : List (Keyword × ℚ)),
      l.foldl
        (fun ms keyword =>
          if containsSub (lower keyword.term) (lower content) then
            ms ++
              [(keyword,
                min ((countPy (lower keyword.term) (lower content) : ℚ) / 10) 1)]
          else ms) acc =
      acc ++ l.filterMap (fun k =>
        if containsSub (lower k.term) (lower content) then
          some (k, min ((countPy (lower k.term) (lower content) : ℚ) / 10) 1)
        else none) by
    simpa using h keywords []
  intro l
  induction l with
  | nil => intro acc; simp
  | cons k rest ih =>
      intro acc
      cases hc : containsSub (lower k.term) (lower content) with
      | true => simp [List.foldl_cons, hc, ih, List.filterMap_cons]
      | false => simp [List.foldl_cons, hc, ih, List.filterMap_cons]

theorem mem_check_keyword_matches {content : List Char} {keywords : List Keyword}
    {p : Keyword × ℚ} :
    p ∈ check_keyword_matches content keywords ↔
      ∃ k ∈ keywords, containsSub (lower k.term) (lower content) = true ∧
        p = (k, matchScore content k) := by
  rw [check_keyword_matches_eq_filterMap]
  simp only [List.mem_filterMap]
  constructor
  · rintro ⟨k, hk, hf⟩
    cases hc : containsSub (lower k.term) (lower content) with
    | true =>
        rw [if_pos hc] at hf
        exact ⟨k, hk, hc, (Option.some.injEq _ _ ▸ hf).symm⟩
    | false => rw [if_neg (by simp [hc])] at hf; cases hf
  · rintro ⟨k, hk, hc, hp⟩
    exact ⟨k, hk, by rw [if_pos hc, hp]⟩

theorem check_score_pos {content : List Char} {keywords : List Keyword}
    {p : Keyword × ℚ} (h : p ∈ check_keyword_matches content keywords) :
    0 < p.2 := by
  rcases mem_check_keyword_matches.mp h with ⟨k, _, hc, hp⟩
  have hcount : 1 ≤ countPy (lower k.term) (lower content) :=
    (containsSub_iff_one_le_countPy _ _).mp hc
  have hq : (0 : ℚ) < (countPy (lower k.term) (lower content) : ℚ) / 10 := by
    have : (1 : ℚ) ≤ (countPy (lower k.term) (lower content) : ℚ) := by
      exact_mod_cast hcount
    linarith
  rw [hp]
  simp only [matchScore]
  exact lt_min hq (by norm_num)

theorem check_countP (content : List Char) (keywords : List Keyword) (kw : Keyword) :
    (check_keyword_matches content keywords).countP (fun p => decide (p.1 = kw)) =
      if containsSub (lower kw.term) (lower content) then
        keywords.countP (fun k => decide (k = kw))
      else 0 := by
  rw [check_keyword_matches_eq_filterMap]
  induction keywords with
  | nil => simp
  | cons k rest ih =>
      rw [List.filterMap_cons]
      by_cases hk : k = kw
      · subst hk
        cases hc : containsSub (lower k.term) (lower content) with
        | true => simp [hc, List.countP_cons, ih]
        | false => simp [hc, ih]
      · cases hc : containsSub (lower k.term) (lower content) with
        | true =>
            simp only [hc, if_true, List.countP_cons, ih]
            simp [hk]
        | false =>
            simp only [hc, Bool.false_eq_true, if_false, ih]
            simp [hk]

/-- C1: for every text T and keyword K in the keyword list handed to
`check_keyword_matches` (occurring once in that list, as the unique-term
constraint on the `Keyword` table guarantees for the active keyword set):
if K's term occurs 0 times in T under case-insensitive comparison
(occurrences counted as Python's `str.count` counts them, which is the
notion the code scores with), K is absent from the result; if it occurs
c ≥ 1 times, K appears exactly once in the result, with score
min(c / 10, 1.0). -/
theorem C1_check_keyword_matches_spec
    (content : List Char) (keywords : List Keyword) (kw : Keyword)
    (hone : keywords.countP (fun k => decide (k = kw)) = 1) :
    (countPy (lower kw.term) (lower content) = 0 →
      ∀ p ∈ check_keyword_matches content keywords, p.1 ≠ kw)
    ∧ (∀ c : Nat, countPy (lower kw.term) (lower content) = c → 1 ≤ c →
        (check_keyword_matches content keywords).countP
            (fun p => decide (p.1 = kw)) = 1
        ∧ ∀ p ∈ check_keyword_matches content keywords,
            p.1 = kw → p.2 = min ((c : ℚ) / 10) 1) := by
  constructor
  · intro hzero p hp hkw
    rcases mem_check_keyword_matches.mp hp with ⟨k, _, hc, hpk⟩
    have hk : k = kw := by
      have : p.1 = k := by rw [hpk]
      rw [← this, hkw]
    subst hk
    have := (containsSub_iff_one_le_countPy _ _).mp hc
    omega
  · intro c hc hc1
    have hcont : containsSub (lower kw.term) (lower content) = true := by
      rw [containsSub_iff_one_le_countPy, hc]; exact hc1
    refine ⟨?_, ?_⟩
    · rw [check_countP, if_pos hcont, hone]
    · intro p hp hkw
      rcases mem_check_keyword_matches.mp hp with ⟨k, _, _, hpk⟩
      have hk : k = kw := by
        have h1 : p.1 = k := by rw [hpk]
        rw [← h1, hkw]
      subst hk
      have h2 : p.2 = matchScore content k := by rw [hpk]
      rw [h2]
      simp only [matchScore, hc]

/-- Concrete check for C1: in the text "ai and ai and ai", the keyword
term "ai" occurs three times, so it is reported exactly once with score
3/10. -/
theorem C1_witness :
    (check_keyword_matches (chars "ai and ai and ai")
        [Keyword.mk 1 (chars "ai") true]).countP
      (fun p => decide (p.1 = Keyword.mk 1 (chars "ai") true)) = 1 :=
  ((C1_check_keyword_matches_spec (chars "ai and ai and ai")
      [Keyword.mk 1 (chars "ai") true] (Keyword.mk 1 (chars "ai") true)
      (by decide)).2 3 (by decide) (by decide)).1

/-- Parsed page at the BeautifulSoup boundary of `scrape_website`:
`textContent` is `soup.get_text()` after the script/style subtrees were
decomposed, `titleTag` the text of the `<title>` element when one exists,
and `articleContent` the text `ContentScraper.extract_article_content`
returns for this soup (first matching selector among article,
main-role, content-class patterns; else body text; else whole document). -/
structure Page where
  textContent : List Char
  titleTag : Option (List Char)
  articleContent : List Char
deriving DecidableEq, Repr

/-- Feed entry at the feedparser boundary of `scrape_rss`: missing
fields are `none` (Python `entry.get(...)` defaulting).  `published` is
the already-parsed result of `ContentScraper.parse_date` on the entry's
published string (`none` when missing or unparsable). -/
structure FeedEntry where
  title : List Char
  description : List Char
  summary : List Char
  link : Option (List Char)
  author : Option (List Char)
  published : Option Nat
deriving DecidableEq, Repr

/-- The dict a scraper hands to `run_content_scraping` for one article.
The website path sets neither author nor published date (the `Article`
constructor call omits them). -/
structure ArticleData where
  title : List Char
  content : List Char
  url : List Char
  author : Option (List Char)
  published : Option Nat
  keywords : List (Keyword × ℚ)
deriving DecidableEq, Repr

/-- External world of one run: deterministic fetch results per URL, a
failure-injection predicate per source id (any exception inside a
source's try block, surfacing at flush or commit), and the run's
`datetime.utcnow()` value. -/
structure Env where
  fetchHtml : List Char → Option Page
  fetchFeed : List Char → List FeedEntry
  persistFails : Nat → Bool
  now : Nat

/-- `ContentScraper.scrape_website`: fetch and parse the page (a failure
returns `None` via the except branch); gate on `check_keyword_matches`
applied to the full page text; on a match return the stripped title, the
extracted article content capped at 5000 characters, the source URL and
the matches. -/
def scrape_website (env : Env) (url : List Char) (keywords : List Keyword) :
    Option ArticleData :=
  match env.fetchHtml url with
  | none => none
  | some soup =>
      let text_content := soup.textContent
      let title := match soup.titleTag with
        | some t => t
        | none => url
      let keyword_matches := check_keyword_matches text_content keywords
      if keyword_matches.isEmpty then none
      else
        some { title := pyStrip title
               content := soup.articleContent.take 5000
               url := url
               author := none
               published := none
               keywords := keyword_matches }

/-- Body string `scrape_rss` builds for an entry:
`entry.get('description', '') + ' ' + entry.get('summary', '')`. -/
def entryRawBody (e : FeedEntry) : List Char :=
  e.description ++ [' '] ++ e.summary

/-- Per-entry step of `scrape_rss`: match keywords over
`title + ' ' + content` and, when the match list is non-empty, build the
article dict (content capped at 5000 characters, link defaulting to the
empty string, author defaulting to the empty string). -/
def entryToData (keywords : List Keyword) (e : FeedEntry) : Option ArticleData :=
  let content := entryRawBody e
  let keyword_matches :=
    check_keyword_matches (e.title ++ [' '] ++ content) keywords
  if keyword_matches.isEmpty then none
  else
    some { title := e.title
           content := content.take 5000
           url := match e.link with
             | some l => l
             | none => []
           author := some (match e.author with
             | some a => a
             | none => [])
           published := e.published
           keywords := keyword_matches }

/-- `ContentScraper.scrape_rss`: walk `feed.entries[:10]` appending the
matching entries' article dicts. -/
def scrape_rss (env : Env) (rss_url : List Char) (keywords : List Keyword) :
    List ArticleData :=
  ((env.fetchFeed rss_url).take 10).foldl
    (fun articles entry =>
      match entryToData keywords entry with
      | some a => articles ++ [a]
      | none => articles)
    []

theorem scrape_rss_eq_filterMap (env : Env) (rss_url : List Char)
    (keywords : List Keyword) :
    scrape_rss env rss_url keywords =
      ((env.fetchFeed rss_url).take 10).filterMap (entryToData keywords) := by
  unfold scrape_rss
  suffices h : ∀ (l : List FeedEntry) (acc : List ArticleData),
      l.foldl
        (fun articles entry =>
          match entryToData keywords entry with
          | some a => articles ++ [a]
          | none => articles) acc =
      acc ++ l.filterMap (entryToData keywords) by
    simpa using h ((env.fetchFeed rss_url).take 10) []
  intro l
  induction l with
  | nil => intro acc; simp
  | cons e rest ih =>
      intro acc
      cases he : entryToData keywords e with
      | none => simp [List.foldl_cons, he, ih, List.filterMap_cons]
      | some a => simp [List.foldl_cons, he, ih, List.filterMap_cons]

/-- Row of the `Article` model as the pipeline creates it (the unused
`summary` column, never set by the pipeline, is omitted). -/
structure ArticleRow where
  id : Nat
  title : List Char
  content : List Char
  url : List Char
  author : Option (List Char)
  published : Option Nat
  sourceId : Nat
deriving DecidableEq, Repr

/-- Row of the `ArticleKeyword` association model. -/
structure AKRow where
  articleId : Nat
  keywordId : Nat
  score : ℚ
deriving DecidableEq, Repr

/-- Row of the `Source` model (fields the pipeline reads or writes). -/
structure SourceRow where
  id : Nat
  name : List Char
  url : List Char
  sourceType : List Char
  active : Bool
  lastScraped : Option Nat
deriving DecidableEq, Repr

/-- The persistent store: the four tables the pipeline touches plus the
autoincrement counter behind `Article.id` (obtained by the code via
`db.session.flush()`). -/
structure DB where
  articles : List ArticleRow
  articleKeywords : List AKRow
  sources : List SourceRow
  keywords : List Keyword
  nextArticleId : Nat
deriving DecidableEq, Repr

/-- URL column of the article table. -/
def urls (st : DB) : List (List Char) := st.articles.map (fun a => a.url)

/-- The `Article` row built from one scraper dict, at the next free id. -/
def newArticleRow (st : DB) (sourceId : Nat) (ad : ArticleData) : ArticleRow :=
  { id := st.nextArticleId
    title := ad.title
    content := ad.content
    url := ad.url
    author := ad.author
    published := ad.published
    sourceId := sourceId }

/-- The body shared by both branches of `run_content_scraping` for one
candidate article: query for an existing article with the same URL
(`Article.query.filter_by(url=...).first()`, observing earlier flushed
inserts of the same session); when none exists, add the article, flush
to obtain its id, and add one `ArticleKeyword` row per keyword match. -/
def maybeInsert (st : DB) (sourceId : Nat) (ad : ArticleData) : DB :=
  if st.articles.any (fun a => a.url == ad.url) then st
  else
    let article := newArticleRow st sourceId ad
    { st with
      articles := st.articles ++ [article]
      articleKeywords := st.articleKeywords ++
        ad.keywords.map (fun km =>
          { articleId := article.id, keywordId := km.1.id, score := km.2 })
      nextArticleId := st.nextArticleId + 1 }

/-- Candidate article dicts one source contributes in a run: the feed
branch yields the `scrape_rss` list, the website branch at most the one
`scrape_website` dict. -/
def candidates (env : Env) (keywords : List Keyword) (src : SourceRow) :
    List ArticleData :=
  if src.sourceType = chars "rss" then scrape_rss env src.url keywords
  else (scrape_website env src.url keywords).toList

/-- `source.last_scraped = datetime.utcnow()` on the row with the given
id. -/
def updateLastScraped (sid : Nat) (t : Nat) (s : SourceRow) : SourceRow :=
  if s.id == sid then { s with lastScraped := some t } else s

/-- One iteration of the source loop of `run_content_scraping`: build the
pending session state (per-candidate dedup check and insert), set the
source's `last_scraped`, then commit; any injected failure makes
`db.session.rollback()` discard the whole pending unit, after which the
loop moves on to the next source. -/
def processSource (env : Env) (keywords : List Keyword) (st : DB)
    (src : SourceRow) : DB :=
  let pending :=
    if src.sourceType = chars "rss" then
      (scrape_rss env src.url keywords).foldl
        (fun s ad => maybeInsert s src.id ad) st
    else
      match scrape_website env src.url keywords with
      | none => st
      | some ad => maybeInsert st src.id ad
  if env.persistFails src.id then st
  else
    { pending with
      sources := pending.sources.map (updateLastScraped src.id env.now) }

/-- `run_content_scraping`: snapshot the active sources and active
keywords, then process each active source in order. -/
def run_content_scraping (env : Env) (db : DB) : DB :=
  let sources := db.sources.filter (fun s => s.active)
  let keywords := db.keywords.filter (fun k => k.active)
  sources.foldl (processSource env keywords) db

/-- The fields of a source row that the pipeline reads (id for failure
injection and `last_scraped` addressing, url and type for scraping,
active for the snapshot filter). -/
def sourceKey (s : SourceRow) : Nat × List Char × List Char × Bool :=
  (s.id, s.url, s.sourceType, s.active)

/-- The per-source candidate fold (the article loop inside one source's
try block, acting on the session's pending state). -/
def foldIns (st : DB) (sid : Nat) (cands : List ArticleData) : DB :=
  cands.foldl (fun s ad => maybeInsert s sid ad) st

theorem mem_urls_iff {st : DB} {u : List Char} :
    u ∈ urls st ↔ ∃ a ∈ st.articles, a.url = u := by
  simp [urls, List.mem_map, eq_comm]

theorem maybeInsert_skip {st : DB} {sid : Nat} {ad : ArticleData}
    (h : ad.url ∈ urls st) : maybeInsert st sid ad = st := by
  rcases mem_urls_iff.mp h with ⟨a, ha, hu⟩
  unfold maybeInsert
  rw [if_pos]
  rw [List.any_eq_true]
  exact ⟨a, ha, by simp [hu]⟩

theorem maybeInsert_insert {st : DB} {sid : Nat} {ad : ArticleData}
    (h : ad.url ∉ urls st) :
    maybeInsert st sid ad =
      { st with
        articles := st.articles ++ [newArticleRow st sid ad]
        articleKeywords := st.articleKeywords ++
          ad.keywords.map (fun km =>
            { articleId := st.nextArticleId, keywordId := km.1.id, score := km.2 })
        nextArticleId := st.nextArticleId + 1 } := by
  unfold maybeInsert
  rw [if_neg]
  · rfl
  · intro hany
    rcases List.any_eq_true.mp hany with ⟨a, ha, he⟩
    exact h (mem_urls_iff.mpr ⟨a, ha, by simpa using he⟩)

theorem maybeInsert_sources (st : DB) (sid : Nat) (ad : ArticleData) :
    (maybeInsert st sid ad).sources = st.sources := by
  unfold maybeInsert
  split <;> rfl

theorem maybeInsert_keywords (st : DB) (sid : Nat) (ad : ArticleData) :
    (maybeInsert st sid ad).keywords = st.keywords := by
  unfold maybeInsert
  split <;> rfl

theorem urls_maybeInsert_mono (st : DB) (sid : Nat) (ad : ArticleData) :
    urls st ⊆ urls (maybeInsert st sid ad) := by
  unfold maybeInsert
  split
  · exact fun u hu => hu
  · intro u hu
    simp only [urls, List.map_append] at *
    exact List.mem_append_left _ hu

theorem mem_urls_maybeInsert (st : DB) (sid : Nat) (ad : ArticleData) :
    ad.url ∈ urls (maybeInsert st sid ad) := by
  by_cases h : ad.url ∈ urls st
  · rw [maybeInsert_skip h]; exact h
  · rw [maybeInsert_insert h]
    simp [urls, newArticleRow]

theorem maybeInsert_articles_sub {st : DB} {sid : Nat} {ad : ArticleData}
    {a : ArticleRow} (h : a ∈ (maybeInsert st sid ad).articles) :
    a ∈ st.articles ∨ (a = newArticleRow st sid ad ∧ ad.url ∉ urls st) := by
  by_cases hu : ad.url ∈ urls st
  · rw [maybeInsert_skip hu] at h; exact Or.inl h
  · rw [maybeInsert_insert hu] at h
    simp only [List.mem_append, List.mem_singleton] at h
    cases h with
    | inl h => exact Or.inl h
    | inr h => exact Or.inr ⟨h, hu⟩

theorem nodup_urls_maybeInsert {st : DB} (sid : Nat) (ad : ArticleData)
    (h : (urls st).Nodup) : (urls (maybeInsert st sid ad)).Nodup := by
  by_cases hu : ad.url ∈ urls st
  · rw [maybeInsert_skip hu]; exact h
  · rw [maybeInsert_insert hu]
    simp only [urls, List.map_append, List.map_cons, List.map_nil]
    rw [List.nodup_append]
    refine ⟨h, List.nodup_singleton _, ?_⟩
    intro u hu1 hu2
    simp only [newArticleRow, List.mem_singleton] at hu2
    exact hu (by rw [← hu2]; exact hu1)

theorem foldIns_sources (cands : List ArticleData) (st : DB) (sid : Nat) :
    (foldIns st sid cands).sources = st.sources := by
  induction cands generalizing st with
  | nil => rfl
  | cons ad rest ih =>
      simp only [foldIns, List.foldl_cons] at *
      rw [ih, maybeInsert_sources]

theorem foldIns_keywords (cands : List ArticleData) (st : DB) (sid : Nat) :
    (foldIns st sid cands).keywords = st.keywords := by
  induction cands generalizing st with
  | nil => rfl
  | cons ad rest ih =>
      simp only [foldIns, List.foldl_cons] at *
      rw [ih, maybeInsert_keywords]

theorem urls_foldIns_mono (cands : List ArticleData) (st : DB) (sid : Nat) :
    urls st ⊆ urls (foldIns st sid cands) := by
  induction cands generalizing st with
  | nil => exact fun u hu => hu
  | cons ad rest ih =>
      simp only [foldIns, List.foldl_cons] at *
      exact fun u hu => ih _ (urls_maybeInsert_mono st sid ad hu)

theorem mem_urls_foldIns (cands : List ArticleData) (st : DB) (sid : Nat) :
    ∀ ad ∈ cands, ad.url ∈ urls (foldIns st sid cands) := by
  induction cands generalizing st with
  | nil => intro ad h; cases h
  | cons c rest ih =>
      intro ad h
      simp only [foldIns, List.foldl_cons]
      rcases List.mem_cons.mp h with h | h
      · subst h
        exact urls_foldIns_mono rest _ sid (mem_urls_maybeInsert st sid ad)
      · exact ih _ ad h

theorem foldIns_skip_all {cands : List ArticleData} {st : DB} {sid : Nat}
    (h : ∀ ad ∈ cands, ad.url ∈ urls st) : foldIns st sid cands = st := by
  induction cands with
  | nil => rfl
  | cons c rest ih =>
      simp only [foldIns, List.foldl_cons]
      rw [maybeInsert_skip (h c (List.mem_cons_self c rest))]
      exact ih (fun ad had => h ad (List.mem_cons_of_mem c had))

theorem nodup_urls_foldIns (cands : List ArticleData) {st : DB} (sid : Nat)
    (h : (urls st).Nodup) : (urls (foldIns st sid cands)).Nodup := by
  induction cands generalizing st with
  | nil => exact h
  | cons c rest ih =>
      simp only [foldIns, List.foldl_cons]
      exact ih (nodup_urls_maybeInsert sid c h)

theorem foldIns_fresh {cands : List ArticleData} {st : DB} {sid : Nat}
    {a : ArticleRow} (h : a ∈ (foldIns st sid cands).articles) :
    a ∈ st.articles ∨ a.url ∉ urls st := by
  induction cands generalizing st with
  | nil => exact Or.inl h
  | cons c rest ih =>
      simp only [foldIns, List.foldl_cons] at h
      rcases ih h with h1 | h1
      · rcases maybeInsert_articles_sub h1 with h2 | ⟨h2, h3⟩
        · exact Or.inl h2
        · refine Or.inr ?_
          rw [h2]
          simpa [newArticleRow] using h3
      · refine Or.inr ?_
        intro hu
        exact h1 (urls_maybeInsert_mono st sid c hu)

theorem foldIns_provenance {cands : List ArticleData} {st : DB} {sid : Nat}
    {a : ArticleRow} (h : a ∈ (foldIns st sid cands).articles) :
    a ∈ st.articles ∨
      ∃ ad ∈ cands, a.content = ad.content ∧ a.url = ad.url ∧
        a.title = ad.title ∧ a.sourceId = sid := by
  induction cands generalizing st with
  | nil => exact Or.inl h
  | cons c rest ih =>
      simp only [foldIns, List.foldl_cons] at h
      rcases ih h with h1 | ⟨ad, had, hprops⟩
      · rcases maybeInsert_articles_sub h1 with h2 | ⟨h2, _⟩
        · exact Or.inl h2
        · exact Or.inr ⟨c, List.mem_cons_self c rest, by simp [h2, newArticleRow]⟩
      · exact Or.inr ⟨ad, List.mem_cons_of_mem c had, hprops⟩

theorem processSource_eq (env : Env) (kws : List Keyword) (st : DB)
    (src : SourceRow) :
    processSource env kws st src =
      if env.persistFails src.id then st
      else
        { foldIns st src.id (candidates env kws src) with
          sources := (foldIns st src.id (candidates env kws src)).sources.map
            (updateLastScraped src.id env.now) } := by
  unfold processSource candidates foldIns
  by_cases ht : src.sourceType = chars "rss"
  · simp only [ht, if_true]
  · simp only [ht, if_false]
    cases hw : scrape_website env src.url kws with
    | none => simp [List.foldl]
    | some ad => simp [List.foldl]

theorem processSource_fail {env : Env} {kws : List Keyword} {st : DB}
    {src : SourceRow} (h : env.persistFails src.id = true) :
    processSource env kws st src = st := by
  rw [processSource_eq, if_pos h]

theorem processSource_sources (env : Env) (kws : List Keyword) (st : DB)
    (src : SourceRow) :
    (processSource env kws st src).sources =
      if env.persistFails src.id then st.sources
      else st.sources.map (updateLastScraped src.id env.now) := by
  rw [processSource_eq]
  by_cases h : env.persistFails src.id
  · simp [h]
  · simp [h, foldIns_sources]

theorem processSource_keywords (env : Env) (kws : List Keyword) (st : DB)
    (src : SourceRow) :
    (processSource env kws st src).keywords = st.keywords := by
  rw [processSource_eq]
  by_cases h : env.persistFails src.id
  · simp [h]
  · simp [h, foldIns_keywords]

theorem processSource_articles (env : Env) (kws : List Keyword) (st : DB)
    (src : SourceRow) :
    (processSource env kws st src).articles =
      if env.persistFails src.id then st.articles
      else (foldIns st src.id (candidates env kws src)).articles := by
  rw [processSource_eq]
  by_cases h : env.persistFails src.id <;> simp [h]

theorem processSource_articleKeywords (env : Env) (kws : List Keyword) (st : DB)
    (src : SourceRow) :
    (processSource env kws st src).articleKeywords =
      if env.persistFails src.id then st.articleKeywords
      else (foldIns st src.id (candidates env kws src)).articleKeywords := by
  rw [processSource_eq]
  by_cases h : env.persistFails src.id <;> simp [h]

theorem urls_processSource_mono (env : Env) (kws : List Keyword) (st : DB)
    (src : SourceRow) : urls st ⊆ urls (processSource env kws st src) := by
  intro u hu
  simp only [urls] at *
  rw [processSource_articles]
  by_cases h : env.persistFails src.id
  · simpa [h] using hu
  · simp only [h, if_false]
    exact urls_foldIns_mono _ st src.id hu

theorem nodup_urls_processSource (env : Env) (kws : List Keyword) {st : DB}
    (src : SourceRow) (h : (urls st).Nodup) :
    (urls (processSource env kws st src)).Nodup := by
  simp only [urls]
  rw [processSource_articles]
  by_cases hf : env.persistFails src.id
  · simpa [hf] using h
  · simp only [hf, if_false]
    exact nodup_urls_foldIns _ src.id h

theorem processSource_fresh {env : Env} {kws : List Keyword} {st : DB}
    {src : SourceRow} {a : ArticleRow}
    (h : a ∈ (processSource env kws st src).articles) :
    a ∈ st.articles ∨ a.url ∉ urls st := by
  rw [processSource_articles] at h
  by_cases hf : env.persistFails src.id
  · rw [if_pos hf] at h; exact Or.inl h
  · rw [if_neg hf] at h; exact foldIns_fresh h

theorem processSource_provenance {env : Env} {kws : List Keyword} {st : DB}
    {src : SourceRow} {a : ArticleRow}
    (h : a ∈ (processSource env kws st src).articles) :
    a ∈ st.articles ∨
      ∃ ad ∈ candidates env kws src, a.content = ad.content ∧ a.url = ad.url ∧
        a.title = ad.title ∧ a.sourceId = src.id := by
  rw [processSource_articles] at h
  by_cases hf : env.persistFails src.id
  · rw [if_pos hf] at h; exact Or.inl h
  · rw [if_neg hf] at h; exact foldIns_provenance h

theorem mem_cands_urls_processSource {env : Env} {kws : List Keyword} {st : DB}
    {src : SourceRow} (hf : env.persistFails src.id = false) :
    ∀ ad ∈ candidates env kws src, ad.url ∈ urls (processSource env kws st src) := by
  intro ad had
  simp only [urls]
  rw [processSource_articles, hf]
  simp only [Bool.false_eq_true, if_false]
  exact mem_urls_foldIns _ st src.id ad had

theorem sourceKey_updateLastScraped (sid t : Nat) (s : SourceRow) :
    sourceKey (updateLastScraped sid t s) = sourceKey s := by
  unfold updateLastScraped sourceKey
  split <;> rfl

theorem processSource_congr (env : Env) (kws : List Keyword) (st : DB)
    {s t : SourceRow} (h : sourceKey s = sourceKey t) :
    processSource env kws st s = processSource env kws st t := by
  unfold sourceKey at h
  have h1 : s.id = t.id := congrArg (fun p => p.1) h
  have h2 : s.url = t.url := congrArg (fun p => p.2.1) h
  have h3 : s.sourceType = t.sourceType := congrArg (fun p => p.2.2.1) h
  unfold processSource
  rw [h1, h2, h3]

theorem run_eq (env : Env) (db : DB) :
    run_content_scraping env db =
      (db.sources.filter (fun s => s.active)).foldl
        (processSource env (db.keywords.filter (fun k => k.active))) db := rfl

theorem foldl_ps_keywords (env : Env) (kws : List Keyword)
    (snap : List SourceRow) (st : DB) :
    (snap.foldl (processSource env kws) st).keywords = st.keywords := by
  induction snap generalizing st with
  | nil => rfl
  | cons s rest ih =>
      simp only [List.foldl_cons]
      rw [ih, processSource_keywords]

theorem urls_foldl_ps_mono (env : Env) (kws : List Keyword)
    (snap : List SourceRow) (st : DB) :
    urls st ⊆ urls (snap.foldl (processSource env kws) st) := by
  induction snap generalizing st with
  | nil => exact fun u hu => hu
  | cons s rest ih =>
      simp only [List.foldl_cons]
      exact fun u hu => ih _ (urls_processSource_mono env kws st s hu)

theorem nodup_urls_foldl_ps (env : Env) (kws : List Keyword)
    (snap : List SourceRow) {st : DB} (h : (urls st).Nodup) :
    (urls (snap.foldl (processSource env kws) st)).Nodup := by
  induction snap generalizing st with
  | nil => exact h
  | cons s rest ih =>
      simp only [List.foldl_cons]
      exact ih (nodup_urls_processSource env kws s h)

theorem foldl_ps_fresh {env : Env} {kws : List Keyword}
    {snap : List SourceRow} {st : DB} {a : ArticleRow}
    (h : a ∈ (snap.foldl (processSource env kws) st).articles) :
    a ∈ st.articles ∨ a.url ∉ urls st := by
  induction snap generalizing st with
  | nil => exact Or.inl h
  | cons s rest ih =>
      simp only [List.foldl_cons] at h
      rcases ih h with h1 | h1
      · rcases processSource_fresh h1 with h2 | h2
        · exact Or.inl h2
        · exact Or.inr h2
      · refine Or.inr ?_
        intro hu
        exact h1 (urls_processSource_mono env kws st s hu)

theorem processSource_sources_key (env : Env) (kws : List Keyword) (st : DB)
    (src : SourceRow) :
    ((processSource env kws st src).sources).map sourceKey =
      st.sources.map sourceKey := by
  rw [processSource_sources]
  cases hf : env.persistFails src.id with
  | true => rfl
  | false =>
      simp only [Bool.false_eq_true, if_false, List.map_map]
      apply List.map_congr_left
      intro s _
      exact sourceKey_updateLastScraped src.id env.now s

theorem foldl_ps_sources_key (env : Env) (kws : List Keyword)
    (snap : List SourceRow) (st : DB) :
    ((snap.foldl (processSource env kws) st).sources).map sourceKey =
      st.sources.map sourceKey := by
  induction snap generalizing st with
  | nil => rfl
  | cons s rest ih =>
      simp only [List.foldl_cons]
      rw [ih, processSource_sources_key]

theorem foldl_ps_candidates_present (env : Env) (kws : List Keyword) :
    ∀ (snap : List SourceRow) (st : DB), ∀ s ∈ snap,
      env.persistFails s.id = false →
      ∀ ad ∈ candidates env kws s,
        ad.url ∈ urls (snap.foldl (processSource env kws) st) := by
  intro snap
  induction snap with
  | nil => intro st s hs; cases hs
  | cons h rest ih =>
      intro st s hs hf ad had
      simp only [List.foldl_cons]
      rcases List.mem_cons.mp hs with he | he
      · subst he
        exact urls_foldl_ps_mono env kws rest _
          (mem_cands_urls_processSource hf ad had)
      · exact ih _ s he hf ad had

theorem foldl_ps_skip_all {env : Env} {kws : List Keyword} :
    ∀ {snap : List SourceRow} {st : DB},
      (∀ s ∈ snap, env.persistFails s.id = false →
        ∀ ad ∈ candidates env kws s, ad.url ∈ urls st) →
      (snap.foldl (processSource env kws) st).articles = st.articles := by
  intro snap
  induction snap with
  | nil => intro st _; rfl
  | cons s rest ih =>
      intro st hpre
      simp only [List.foldl_cons]
      cases hf : env.persistFails s.id with
      | true =>
          rw [processSource_fail hf]
          exact ih (fun t ht => hpre t (List.mem_cons_of_mem s ht))
      | false =>
          have hcands : ∀ ad ∈ candidates env kws s, ad.url ∈ urls st :=
            hpre s (List.mem_cons_self s rest) hf
          have hfold : foldIns st s.id (candidates env kws s) = st :=
            foldIns_skip_all hcands
          have hps : processSource env kws st s =
              { st with sources := st.sources.map (updateLastScraped s.id env.now) } := by
            rw [processSource_eq, if_neg (by simp [hf]), hfold]
          rw [hps]
          have hurls : urls { st with
              sources := st.sources.map (updateLastScraped s.id env.now) } = urls st := rfl
          rw [ih ?_]
          · intro t ht hft ad had
            rw [hurls]
            exact hpre t (List.mem_cons_of_mem s ht) hft ad had

theorem foldl_ps_congr (env : Env) (kws : List Keyword) :
    ∀ {l1 l2 : List SourceRow} (st : DB),
      l1.map sourceKey = l2.map sourceKey →
      l1.foldl (processSource env kws) st = l2.foldl (processSource env kws) st := by
  intro l1
  induction l1 with
  | nil =>
      intro l2 st h
      cases l2 with
      | nil => rfl
      | cons b bs => simp at h
  | cons a as ih =>
      intro l2 st h
      cases l2 with
      | nil => simp at h
      | cons b bs =>
          simp only [List.map_cons, List.cons.injEq] at h
          simp only [List.foldl_cons]
          rw [processSource_congr env kws st h.1, ih _ h.2]

theorem filter_active_map_key :
    ∀ {l1 l2 : List SourceRow}, l1.map sourceKey = l2.map sourceKey →
      (l1.filter (fun s => s.active)).map sourceKey =
        (l2.filter (fun s => s.active)).map sourceKey := by
  intro l1
  induction l1 with
  | nil =>
      intro l2 h
      cases l2 with
      | nil => rfl
      | cons b bs => simp at h
  | cons a as ih =>
      intro l2 h
      cases l2 with
      | nil => simp at h
      | cons b bs =>
          simp only [List.map_cons, List.cons.injEq] at h
          have hact : a.active = b.active := by
            have := congrArg (fun p => p.2.2.2) h.1
            simpa [sourceKey] using this
          cases hb : b.active with
          | true =>
              have ha2 : a.active = true := hact.trans hb
              rw [List.filter_cons_of_pos ha2, List.filter_cons_of_pos hb,
                List.map_cons, List.map_cons]
              exact congrArg₂ List.cons h.1 (ih h.2)
          | false =>
              have ha2 : a.active = false := hact.trans hb
              rw [List.filter_cons_of_neg (by simp [ha2]),
                List.filter_cons_of_neg (by simp [hb])]
              exact ih h.2

theorem run_keywords (env : Env) (db : DB) :
    (run_content_scraping env db).keywords = db.keywords := by
  rw [run_eq]
  exact foldl_ps_keywords env _ _ db

theorem run_sources_key (env : Env) (db : DB) :
    ((run_content_scraping env db).sources).map sourceKey =
      db.sources.map sourceKey := by
  rw [run_eq]
  exact foldl_ps_sources_key env _ _ db

theorem run_fresh {env : Env} {db : DB} {a : ArticleRow}
    (h : a ∈ (run_content_scraping env db).articles) :
    a ∈ db.articles ∨ a.url ∉ urls db := by
  rw [run_eq] at h
  exact foldl_ps_fresh h

theorem run_idempotent_articles (env : Env) (db : DB) :
    (run_content_scraping env (run_content_scraping env db)).articles =
      (run_content_scraping env db).articles := by
  have hkw : (run_content_scraping env db).keywords.filter (fun k => k.active) =
      db.keywords.filter (fun k => k.active) := by rw [run_keywords]
  have hkey : ((run_content_scraping env db).sources.filter (fun s => s.active)).map
        sourceKey =
      (db.sources.filter (fun s => s.active)).map sourceKey :=
    filter_active_map_key (run_sources_key env db)
  conv_lhs => rw [run_eq, hkw, foldl_ps_congr env _ _ hkey]
  apply foldl_ps_skip_all
  intro s hs hf ad had
  rw [run_eq]
  exact foldl_ps_candidates_present env _ _ db s hs hf ad had

theorem nodup_urls_run (env : Env) {db : DB} (h : (urls db).Nodup) :
    (urls (run_content_scraping env db)).Nodup := by
  rw [run_eq]
  exact nodup_urls_foldl_ps env _ _ h

/-- C2: running `run_content_scraping` a second time against an unchanged
environment (same fetch results, same failure injection) inserts zero new
articles — the article table after the second run equals the table after
the first; any candidate whose URL already has an `Article` row is
skipped by the dedup check; and the pipeline preserves global URL
uniqueness of the article table. -/
theorem C2_second_run_inserts_nothing (env : Env) (db : DB) :
    (run_content_scraping env (run_content_scraping env db)).articles =
      (run_content_scraping env db).articles
    ∧ (∀ (st : DB) (sid : Nat) (ad : ArticleData),
        ad.url ∈ urls st → maybeInsert st sid ad = st)
    ∧ ((urls db).Nodup → (urls (run_content_scraping env db)).Nodup) :=
  ⟨run_idempotent_articles env db,
   fun _ _ _ h => maybeInsert_skip h,
   fun h => nodup_urls_run env h⟩

/-- Keyword used by the concrete C2 scenario. -/
def c2Kw : Keyword := { id := 1, term := chars "python", active := true }

/-- Feed entry used by the concrete C2 scenario. -/
def c2Entry : FeedEntry :=
  { title := chars "Python news"
    description := chars "all about python"
    summary := chars "python tips"
    link := some (chars "http://e.com/a")
    author := some (chars "bob")
    published := some 100 }

/-- Feed source used by the concrete C2 scenario. -/
def c2Src : SourceRow :=
  { id := 1, name := chars "Feed", url := chars "http://e.com/rss"
    sourceType := chars "rss", active := true, lastScraped := none }

/-- Environment of the concrete C2 scenario. -/
def c2Env : Env :=
  { fetchHtml := fun _ => none
    fetchFeed := fun _ => [c2Entry]
    persistFails := fun _ => false
    now := 7 }

/-- Initial store of the concrete C2 scenario. -/
def c2Db : DB :=
  { articles := [], articleKeywords := [], sources := [c2Src]
    keywords := [c2Kw], nextArticleId := 1 }

/-- Store with one article, for the concrete skip check of C2. -/
def c2St : DB :=
  { articles := [{ id := 1, title := chars "t", content := chars "c"
                   url := chars "u", author := none, published := none
                   sourceId := 1 }]
    articleKeywords := [], sources := [], keywords := [], nextArticleId := 2 }

/-- Candidate dict whose URL collides with the article of `c2St`. -/
def c2Ad : ArticleData :=
  { title := chars "t2", content := chars "c2", url := chars "u"
    author := none, published := none, keywords := [] }

/-- Concrete check for C2: in a one-source one-entry world, the second
run leaves the article table of the first run unchanged, a colliding URL
is skipped, and URL uniqueness holds after the run. -/
theorem C2_witness :
    (run_content_scraping c2Env (run_content_scraping c2Env c2Db)).articles =
      (run_content_scraping c2Env c2Db).articles
    ∧ maybeInsert c2St 1 c2Ad = c2St
    ∧ (urls (run_content_scraping c2Env c2Db)).Nodup :=
  ⟨(C2_second_run_inserts_nothing c2Env c2Db).1,
   (C2_second_run_inserts_nothing c2Env c2Db).2.1 c2St 1 c2Ad (by decide),
   (C2_second_run_inserts_nothing c2Env c2Db).2.2 (by decide)⟩

/-- Keyword of the concrete C3 scenario. -/
def c3Kw : Keyword := { id := 1, term := chars "python", active := true }

/-- Page of the concrete C3 scenario: the full page text contains the
keyword, the extracted article content and the title do not. -/
def c3Page : Page :=
  { textContent := chars "python python"
    titleTag := some (chars "News")
    articleContent := chars "hello world" }

/-- Website source of the concrete C3 scenario. -/
def c3Src : SourceRow :=
  { id := 1, name := chars "Site", url := chars "http://s.com"
    sourceType := chars "website", active := true, lastScraped := none }

/-- Environment of the concrete C3 scenario. -/
def c3Env : Env :=
  { fetchHtml := fun _ => some c3Page
    fetchFeed := fun _ => []
    persistFails := fun _ => false
    now := 3 }

/-- Initial store of the concrete C3 scenario. -/
def c3Db : DB :=
  { articles := [], articleKeywords := [], sources := [c3Src]
    keywords := [c3Kw], nextArticleId := 1 }

/-- C3 (claim as stated is false): a website page whose full text
matches a keyword while the extracted title and extracted body do not
still yields a persisted article — keyword matching over the combined
extracted title and body returns no match, yet the run creates one
article. -/
theorem C3_counterexample :
    check_keyword_matches
        (pyStrip (chars "News") ++ [' '] ++ chars "hello world") [c3Kw] = []
    ∧ check_keyword_matches c3Page.textContent [c3Kw] ≠ []
    ∧ c3Db.articles = []
    ∧ (run_content_scraping c3Env c3Db).articles.length = 1 := by decide


theorem scrape_website_none_of_no_match {env : Env} {url : List Char}
    {kws : List Keyword} {page : Page} (hp : env.fetchHtml url = some page)
    (hz : check_keyword_matches page.textContent kws = []) :
    scrape_website env url kws = none := by
  unfold scrape_website
  rw [hp]
  simp [hz]

theorem scrape_website_some_fields {env : Env} {url : List Char}
    {kws : List Keyword} {page : Page} (hp : env.fetchHtml url = some page)
    {ad : ArticleData} (h : scrape_website env url kws = some ad) :
    ad.keywords = check_keyword_matches page.textContent kws
    ∧ ad.content = page.articleContent.take 5000
    ∧ ad.url = url
    ∧ ad.author = none
    ∧ ad.published = none := by
  unfold scrape_website at h
  rw [hp] at h
  simp only at h
  cases hz : (check_keyword_matches page.textContent kws).isEmpty with
  | true => rw [if_pos hz] at h; cases h
  | false =>
      rw [if_neg (by simp [hz])] at h
      have he := Option.some.injEq _ _ ▸ h
      rw [← he]
      exact ⟨rfl, rfl, rfl, rfl, rfl⟩

theorem scrape_website_some_of_match {env : Env} {url : List Char}
    {kws : List Keyword} {page : Page} (hp : env.fetchHtml url = some page)
    (hz : check_keyword_matches page.textContent kws ≠ []) :
    ∃ ad, scrape_website env url kws = some ad := by
  have hz2 : (check_keyword_matches page.textContent kws).isEmpty = false := by
    simpa [List.isEmpty_iff] using hz
  unfold scrape_website
  rw [hp]
  simp only [hz2, Bool.false_eq_true, if_false]
  exact ⟨_, rfl⟩

/-- C3 (amended): in the website path, keyword matching is run over the
full page text (`soup.get_text()` after script/style removal), not over
the extracted title and body: when the full page text has zero matches
no article is produced; when `scrape_website` returns a dict, its match
list is exactly the full-page match list while its stored content is the
extracted article content (capped at 5000), matching or not; and a
full-page match with a fresh URL and no persistence failure adds exactly
one article row. -/
theorem C3_amended_fullpage_gating (env : Env) (kws : List Keyword) (st : DB)
    (src : SourceRow) (page : Page)
    (hw : src.sourceType ≠ chars "rss")
    (hp : env.fetchHtml src.url = some page) :
    (check_keyword_matches page.textContent kws = [] →
      scrape_website env src.url kws = none
      ∧ (processSource env kws st src).articles = st.articles)
    ∧ (∀ ad, scrape_website env src.url kws = some ad →
        ad.keywords = check_keyword_matches page.textContent kws
        ∧ ad.content = page.articleContent.take 5000
        ∧ ad.url = src.url)
    ∧ (check_keyword_matches page.textContent kws ≠ [] →
        env.persistFails src.id = false →
        src.url ∉ urls st →
        (processSource env kws st src).articles.length =
          st.articles.length + 1) := by
  have hcand : candidates env kws src = (scrape_website env src.url kws).toList := by
    unfold candidates
    rw [if_neg hw]
  refine ⟨?_, ?_, ?_⟩
  · intro hz
    have hsw := scrape_website_none_of_no_match hp hz
    refine ⟨hsw, ?_⟩
    rw [processSource_articles]
    by_cases hf : env.persistFails src.id
    · simp [hf]
    · simp only [hf, Bool.false_eq_true, if_false]
      rw [hcand, hsw]
      rfl
  · intro ad had
    have h := scrape_website_some_fields hp had
    exact ⟨h.1, h.2.1, h.2.2.1⟩
  · intro hz hf hurl
    rcases scrape_website_some_of_match hp hz with ⟨ad, hsw⟩
    have hfields := scrape_website_some_fields hp hsw
    rw [processSource_articles, hf]
    simp only [Bool.false_eq_true, if_false]
    rw [hcand, hsw, Option.toList_some]
    have hfold : foldIns st src.id [ad] = maybeInsert st src.id ad := rfl
    rw [hfold, maybeInsert_insert (by rw [hfields.2.2.1]; exact hurl)]
    simp

/-- Concrete check for C3 (amended): on the C3 scenario the run adds
exactly one article row to the empty table. -/
theorem C3_amended_witness :
    (processSource c3Env [c3Kw] c3Db c3Src).articles.length =
      c3Db.articles.length + 1 :=
  (C3_amended_fullpage_gating c3Env [c3Kw] c3Db c3Src c3Page
      (by decide) rfl).2.2 (by decide) rfl (by decide)

/-- Trigger-level state: whether the one APScheduler interval job
registered by `init_scheduler` has an instance in flight, and how many
threads started by `manual_scrape` are currently executing
`run_content_scraping`. -/
structure Sched where
  schedRunning : Bool
  manualRunning : Nat
deriving DecidableEq, Repr

/-- Number of `run_content_scraping` executions in flight. -/
def runningRuns (s : Sched) : Nat :=
  (if s.schedRunning then 1 else 0) + s.manualRunning

/-- Firing of the interval job added by `init_scheduler` (every 4 hours,
id `content_scraping_job`): APScheduler's default `max_instances = 1`
skips a firing that would overlap a still-running instance of the same
job, so at most one scheduled instance runs. -/
def timer_fire (s : Sched) : Sched :=
  if s.schedRunning then s else { s with schedRunning := true }

/-- `manual_scrape` (route `/scrape/manual`): starts a new daemon thread
running `run_content_scraping` unconditionally — no lock, flag, or queue
is consulted before `thread.start()`. -/
def manual_scrape (s : Sched) : Sched :=
  { s with manualRunning := s.manualRunning + 1 }

/-- C4 (the code violates the claim): starting from the idle state, a
timer firing followed by a manual trigger while that run is still in
progress leaves two `run_content_scraping` executions in flight — the
manual trigger is neither dropped nor coalesced, so the claimed mutual
exclusion does not hold. -/
theorem C4_manual_trigger_overlaps_timer_run :
    runningRuns (manual_scrape (timer_fire (Sched.mk false 0))) = 2 := by decide

/-- Association rows of one article. -/
def akRows (st : DB) (aid : Nat) : List AKRow :=
  st.articleKeywords.filter (fun r => r.articleId == aid)

/-- Well-formedness of the store with respect to the autoincrement
counter: every article id and every association row's article id is
below the next free id. -/
def WF (st : DB) : Prop :=
  (∀ a ∈ st.articles, a.id < st.nextArticleId)
  ∧ (∀ r ∈ st.articleKeywords, r.articleId < st.nextArticleId)

instance (st : DB) : Decidable (WF st) := by
  unfold WF
  infer_instance

theorem WF_maybeInsert {st : DB} (sid : Nat) (ad : ArticleData)
    (h : WF st) : WF (maybeInsert st sid ad) := by
  by_cases hu : ad.url ∈ urls st
  · rw [maybeInsert_skip hu]; exact h
  · rw [maybeInsert_insert hu]
    constructor
    · intro a ha
      simp only [List.mem_append, List.mem_singleton] at ha
      rcases ha with ha | ha
      · exact Nat.lt_succ_of_lt (h.1 a ha)
      · rw [ha]; exact Nat.lt_succ_self _
    · intro r hr
      simp only [List.mem_append, List.mem_map] at hr
      rcases hr with hr | ⟨km, _, hkm⟩
      · exact Nat.lt_succ_of_lt (h.2 r hr)
      · rw [← hkm]; exact Nat.lt_succ_self _

theorem maybeInsert_mem_mono {st : DB} {a : ArticleRow} (sid : Nat)
    (ad : ArticleData) (h : a ∈ st.articles) :
    a ∈ (maybeInsert st sid ad).articles := by
  by_cases hu : ad.url ∈ urls st
  · rw [maybeInsert_skip hu]; exact h
  · rw [maybeInsert_insert hu]
    exact List.mem_append_left _ h

theorem akRows_maybeInsert_preserved {st : DB} {a : ArticleRow} (sid : Nat)
    (ad : ArticleData) (hwf : WF st) (ha : a ∈ st.articles) :
    akRows (maybeInsert st sid ad) a.id = akRows st a.id := by
  by_cases hu : ad.url ∈ urls st
  · rw [maybeInsert_skip hu]
  · rw [maybeInsert_insert hu]
    unfold akRows
    simp only [List.filter_append]
    have hnew : (ad.keywords.map (fun km =>
        AKRow.mk st.nextArticleId km.1.id km.2)).filter
          (fun r => r.articleId == a.id) = [] := by
      rw [List.filter_eq_nil_iff]
      intro r hr
      simp only [List.mem_map] at hr
      rcases hr with ⟨km, _, hkm⟩
      have hlt : a.id < st.nextArticleId := hwf.1 a ha
      rw [← hkm]
      simp only [beq_iff_eq]
      omega
    rw [hnew, List.append_nil]

theorem akRows_new_of_insert {st : DB} {sid : Nat} {ad : ArticleData}
    {a : ArticleRow} (hwf : WF st)
    (hmem : a ∈ (maybeInsert st sid ad).articles) (hnot : a ∉ st.articles) :
    a.url = ad.url ∧
      akRows (maybeInsert st sid ad) a.id =
        ad.keywords.map (fun km => AKRow.mk a.id km.1.id km.2) := by
  rcases maybeInsert_articles_sub hmem with h | ⟨hnew, hu⟩
  · exact absurd h hnot
  · have hid : a.id = st.nextArticleId := by rw [hnew]; rfl
    refine ⟨by rw [hnew]; rfl, ?_⟩
    rw [maybeInsert_insert hu]
    unfold akRows
    simp only [List.filter_append]
    have hold : st.articleKeywords.filter (fun r => r.articleId == a.id) = [] := by
      rw [List.filter_eq_nil_iff]
      intro r hr
      have hlt : r.articleId < st.nextArticleId := hwf.2 r hr
      simp only [beq_iff_eq]
      omega
    have hkeep : (ad.keywords.map (fun km =>
        AKRow.mk st.nextArticleId km.1.id km.2)).filter
          (fun r => r.articleId == a.id) =
        ad.keywords.map (fun km => AKRow.mk st.nextArticleId km.1.id km.2) := by
      rw [List.filter_eq_self]
      intro r hr
      simp only [List.mem_map] at hr
      rcases hr with ⟨km, _, hkm⟩
      rw [← hkm]
      simp [hid]
    rw [hold, hkeep, List.nil_append, hid]

theorem foldIns_cons (st : DB) (sid : Nat) (c : ArticleData)
    (rest : List ArticleData) :
    foldIns st sid (c :: rest) = foldIns (maybeInsert st sid c) sid rest := rfl

theorem WF_foldIns (cands : List ArticleData) {st : DB} (sid : Nat)
    (h : WF st) : WF (foldIns st sid cands) := by
  induction cands generalizing st with
  | nil => exact h
  | cons c rest ih =>
      simp only [foldIns, List.foldl_cons]
      exact ih (WF_maybeInsert sid c h)

theorem foldIns_mem_mono (cands : List ArticleData) {st : DB} {a : ArticleRow}
    (sid : Nat) (h : a ∈ st.articles) : a ∈ (foldIns st sid cands).articles := by
  induction cands generalizing st with
  | nil => exact h
  | cons c rest ih =>
      simp only [foldIns, List.foldl_cons]
      exact ih (maybeInsert_mem_mono sid c h)

theorem akRows_foldIns_preserved (cands : List ArticleData) {st : DB}
    {a : ArticleRow} (sid : Nat) (hwf : WF st) (ha : a ∈ st.articles) :
    akRows (foldIns st sid cands) a.id = akRows st a.id := by
  induction cands generalizing st with
  | nil => rfl
  | cons c rest ih =>
      rw [foldIns_cons,
        ih (WF_maybeInsert sid c hwf) (maybeInsert_mem_mono sid c ha),
        akRows_maybeInsert_preserved sid c hwf ha]

theorem foldIns_complete_assoc {cands : List ArticleData} {st : DB} {sid : Nat}
    {a : ArticleRow} (hwf : WF st)
    (hmem : a ∈ (foldIns st sid cands).articles) (hnot : a ∉ st.articles) :
    ∃ ad ∈ cands, a.url = ad.url ∧
      akRows (foldIns st sid cands) a.id =
        ad.keywords.map (fun km => AKRow.mk a.id km.1.id km.2) := by
  induction cands generalizing st with
  | nil => exact absurd hmem hnot
  | cons c rest ih =>
      rw [foldIns_cons] at hmem ⊢
      by_cases h1 : a ∈ (maybeInsert st sid c).articles
      · have hnew := akRows_new_of_insert hwf h1 hnot
        refine ⟨c, List.mem_cons_self c rest, hnew.1, ?_⟩
        rw [akRows_foldIns_preserved rest sid (WF_maybeInsert sid c hwf) h1]
        exact hnew.2
      · rcases ih (WF_maybeInsert sid c hwf) hmem h1 with ⟨ad, had, hprops⟩
        exact ⟨ad, List.mem_cons_of_mem c had, hprops⟩

theorem processSource_complete_assoc {env : Env} {kws : List Keyword} {st : DB}
    {src : SourceRow} {a : ArticleRow} (hwf : WF st)
    (hmem : a ∈ (processSource env kws st src).articles)
    (hnot : a ∉ st.articles) :
    ∃ ad ∈ candidates env kws src, a.url = ad.url ∧
      akRows (processSource env kws st src) a.id =
        ad.keywords.map (fun km => AKRow.mk a.id km.1.id km.2) := by
  rw [processSource_articles] at hmem
  have hak : akRows (processSource env kws st src) a.id =
      if env.persistFails src.id then akRows st a.id
      else akRows (foldIns st src.id (candidates env kws src)) a.id := by
    unfold akRows
    rw [processSource_articleKeywords]
    by_cases hf : env.persistFails src.id <;> simp [hf]
  by_cases hf : env.persistFails src.id
  · rw [if_pos hf] at hmem
    exact absurd hmem hnot
  · rw [if_neg hf] at hmem
    rw [hak, if_neg hf]
    exact foldIns_complete_assoc hwf hmem hnot

theorem foldl_ps_skip_failing (env : Env) (kws : List Keyword) :
    ∀ (snap : List SourceRow) (st : DB),
      snap.foldl (processSource env kws) st =
        (snap.filter (fun s => !env.persistFails s.id)).foldl
          (processSource env kws) st := by
  intro snap
  induction snap with
  | nil => intro st; rfl
  | cons s rest ih =>
      intro st
      cases hf : env.persistFails s.id with
      | true =>
          rw [List.foldl_cons, processSource_fail hf,
            List.filter_cons_of_neg (by simp [hf])]
          exact ih st
      | false =>
          rw [List.foldl_cons, List.filter_cons_of_pos (by simp [hf]),
            List.foldl_cons]
          exact ih _

/-- C5: one source's unit of work is atomic and isolated — a persistence
failure while committing a source leaves the store exactly as it was (no
article and no association rows from that unit become visible, and in
particular no article with a partial association set); the run is the
fold over the non-failing sources only, so a failing source never aborts
the processing of the remaining sources; and every article a source
commits carries exactly the association rows of its computed keyword
matches. -/
theorem C5_unit_atomic_and_isolated (env : Env) (kws : List Keyword) (st : DB)
    (src : SourceRow) (db : DB) :
    (env.persistFails src.id = true → processSource env kws st src = st)
    ∧ run_content_scraping env db =
        ((db.sources.filter (fun s => s.active)).filter
            (fun s => !env.persistFails s.id)).foldl
          (processSource env (db.keywords.filter (fun k => k.active))) db
    ∧ (WF st → ∀ a ∈ (processSource env kws st src).articles,
        a ∉ st.articles →
        ∃ ad ∈ candidates env kws src, a.url = ad.url ∧
          akRows (processSource env kws st src) a.id =
            ad.keywords.map (fun km => AKRow.mk a.id km.1.id km.2)) := by
  refine ⟨fun h => processSource_fail h, ?_, ?_⟩
  · rw [run_eq]
    exact foldl_ps_skip_failing env _ _ db
  · intro hwf a hmem hnot
    exact processSource_complete_assoc hwf hmem hnot

/-- Keyword of the concrete C5 scenario. -/
def c5Kw : Keyword := { id := 1, term := chars "python", active := true }

/-- Page of the concrete C5 scenario. -/
def c5Page : Page :=
  { textContent := chars "python"
    titleTag := some (chars "T")
    articleContent := chars "python stuff" }

/-- Source whose commit succeeds in the concrete C5 scenario. -/
def c5OkSrc : SourceRow :=
  { id := 1, name := chars "A", url := chars "http://a.com"
    sourceType := chars "website", active := true, lastScraped := none }

/-- Source whose commit fails in the concrete C5 scenario. -/
def c5FailSrc : SourceRow :=
  { id := 2, name := chars "B", url := chars "http://b.com"
    sourceType := chars "website", active := true, lastScraped := none }

/-- Environment of the concrete C5 scenario: persistence fails exactly
for source id 2. -/
def c5Env : Env :=
  { fetchHtml := fun _ => some c5Page
    fetchFeed := fun _ => []
    persistFails := fun sid => sid == 2
    now := 9 }

/-- Initial store of the concrete C5 scenario. -/
def c5Db : DB :=
  { articles := [], articleKeywords := [], sources := [c5OkSrc, c5FailSrc]
    keywords := [c5Kw], nextArticleId := 1 }

/-- The article row the succeeding C5 source inserts. -/
def c5Row : ArticleRow :=
  { id := 1, title := chars "T", content := chars "python stuff"
    url := chars "http://a.com", author := none, published := none
    sourceId := 1 }

/-- Concrete check for C5: the failing source leaves the store
untouched, and the succeeding source's article carries exactly the
association rows of its computed matches. -/
theorem C5_witness :
    processSource c5Env [c5Kw] c5Db c5FailSrc = c5Db
    ∧ ∃ ad ∈ candidates c5Env [c5Kw] c5OkSrc, c5Row.url = ad.url ∧
        akRows (processSource c5Env [c5Kw] c5Db c5OkSrc) c5Row.id =
          ad.keywords.map (fun km => AKRow.mk c5Row.id km.1.id km.2) :=
  ⟨(C5_unit_atomic_and_isolated c5Env [c5Kw] c5Db c5FailSrc c5Db).1 (by decide),
   (C5_unit_atomic_and_isolated c5Env [c5Kw] c5Db c5OkSrc c5Db).2.2
     (by decide) c5Row (by decide) (by decide)⟩

/-- C6 (amended): for every source processed in a run, on success and on
fetch failure alike the source's `last_scraped` is set to the run's
`utcnow` (the update does not depend on the fetch outcome at all), but on
a persistence failure the rollback discards the whole unit including the
`last_scraped` update, leaving the source row unchanged. -/
theorem C6_last_scraped_updated (env : Env) (kws : List Keyword) (st : DB)
    (src : SourceRow) :
    (processSource env kws st src).sources =
      (if env.persistFails src.id then st.sources
       else st.sources.map (updateLastScraped src.id env.now))
    ∧ (env.fetchHtml src.url = none → src.sourceType ≠ chars "rss" →
        env.persistFails src.id = false →
        processSource env kws st src =
          { st with sources := st.sources.map (updateLastScraped src.id env.now) }) := by
  refine ⟨processSource_sources env kws st src, ?_⟩
  intro hp hw hf
  have hsw : scrape_website env src.url kws = none := by
    unfold scrape_website
    rw [hp]
  have hcand : candidates env kws src = [] := by
    unfold candidates
    rw [if_neg hw, hsw]
    rfl
  rw [processSource_eq, if_neg (by simp [hf]), hcand]
  rfl

/-- Keyword of the concrete C6 scenarios. -/
def c6Kw : Keyword := { id := 1, term := chars "python", active := true }

/-- Page of the concrete C6 persistence-failure scenario. -/
def c6Page : Page :=
  { textContent := chars "python"
    titleTag := some (chars "T")
    articleContent := chars "x" }

/-- Source of the concrete C6 persistence-failure scenario. -/
def c6Src : SourceRow :=
  { id := 1, name := chars "S", url := chars "http://c.com"
    sourceType := chars "website", active := true, lastScraped := none }

/-- Environment of the concrete C6 persistence-failure scenario:
the fetch succeeds and matches, but every commit fails. -/
def c6Env : Env :=
  { fetchHtml := fun _ => some c6Page
    fetchFeed := fun _ => []
    persistFails := fun _ => true
    now := 5 }

/-- Store of the concrete C6 persistence-failure scenario. -/
def c6Db : DB :=
  { articles := [], articleKeywords := [], sources := [c6Src]
    keywords := [c6Kw], nextArticleId := 1 }

/-- C6 (claim as stated is false): an active source whose fetch succeeds
and matches but whose commit fails keeps `last_scraped = None` after the
run — the rollback discards the update, so the timestamp is not updated
"regardless of outcome". -/
theorem C6_counterexample :
    c6Src.active = true
    ∧ c6Env.persistFails c6Src.id = true
    ∧ (scrape_website c6Env c6Src.url [c6Kw]).isSome = true
    ∧ (run_content_scraping c6Env c6Db).sources.map (fun s => s.lastScraped)
        = [none] := by decide

/-- Environment of the concrete C6 fetch-failure scenario: the fetch
fails, commits succeed. -/
def c6FEnv : Env :=
  { fetchHtml := fun _ => none
    fetchFeed := fun _ => []
    persistFails := fun _ => false
    now := 5 }

/-- Concrete check for C6 (amended): a failed fetch still updates
`last_scraped`, and nothing else. -/
theorem C6_witness :
    processSource c6FEnv [c6Kw] c6Db c6Src =
      { c6Db with sources := c6Db.sources.map (updateLastScraped 1 5) } :=
  (C6_last_scraped_updated c6FEnv [c6Kw] c6Db c6Src).2 rfl (by decide) rfl

theorem entryToData_none_of_no_match {kws : List Keyword} {e : FeedEntry}
    (hz : check_keyword_matches (e.title ++ [' '] ++ entryRawBody e) kws = []) :
    entryToData kws e = none := by
  unfold entryToData
  simp only
  rw [if_pos (by rw [hz]; rfl)]

theorem entryToData_some_core {kws : List Keyword} {e : FeedEntry}
    {ad : ArticleData} (h : entryToData kws e = some ad) :
    ad.keywords = check_keyword_matches (e.title ++ [' '] ++ entryRawBody e) kws
    ∧ ad.content = (entryRawBody e).take 5000
    ∧ ad.url = (match e.link with | some l => l | none => [])
    ∧ ad.title = e.title := by
  unfold entryToData at h
  simp only at h
  cases hz : (check_keyword_matches (e.title ++ [' '] ++ entryRawBody e)
      kws).isEmpty with
  | true => rw [if_pos hz] at h; cases h
  | false =>
      have hz3 : ¬((check_keyword_matches (e.title ++ [' '] ++ entryRawBody e)
          kws).isEmpty = true) := by
        rw [hz]
        exact Bool.false_ne_true
      rw [if_neg hz3] at h
      have he := Option.some.injEq _ _ ▸ h
      rw [← he]
      exact ⟨rfl, rfl, rfl, rfl⟩

theorem entryToData_some_fields {kws : List Keyword} {e : FeedEntry}
    {ad : ArticleData} (h : entryToData kws e = some ad) :
    ad.keywords = check_keyword_matches (e.title ++ [' '] ++ entryRawBody e) kws
    ∧ ad.content = (entryRawBody e).take 5000
    ∧ ad.url = (match e.link with | some l => l | none => [])
    ∧ ad.title = e.title
    ∧ ad.keywords ≠ [] := by
  have hc := entryToData_some_core h
  refine ⟨hc.1, hc.2.1, hc.2.2.1, hc.2.2.2, ?_⟩
  intro hn
  have hz : check_keyword_matches (e.title ++ [' '] ++ entryRawBody e) kws = [] :=
    hc.1.symm.trans hn
  rw [entryToData_none_of_no_match hz] at h
  cases h

theorem scrape_website_content_cap {env : Env} {url : List Char}
    {kws : List Keyword} {ad : ArticleData}
    (h : scrape_website env url kws = some ad) : ad.content.length ≤ 5000 := by
  cases hp : env.fetchHtml url with
  | none => unfold scrape_website at h; rw [hp] at h; cases h
  | some page =>
      have hc := (scrape_website_some_fields hp h).2.1
      rw [hc, List.length_take]
      exact Nat.min_le_left _ _

theorem candidates_content_cap {env : Env} {kws : List Keyword}
    {src : SourceRow} {ad : ArticleData} (h : ad ∈ candidates env kws src) :
    ad.content.length ≤ 5000 := by
  unfold candidates at h
  by_cases ht : src.sourceType = chars "rss"
  · rw [if_pos ht, scrape_rss_eq_filterMap] at h
    rcases List.mem_filterMap.mp h with ⟨e, _, he⟩
    have hc := (entryToData_some_fields he).2.1
    rw [hc, List.length_take]
    exact Nat.min_le_left _ _
  · rw [if_neg ht] at h
    cases hw : scrape_website env src.url kws with
    | none => rw [hw] at h; cases h
    | some ad2 =>
        rw [hw, Option.toList_some, List.mem_singleton] at h
        rw [h]
        exact scrape_website_content_cap hw

theorem foldl_ps_provenance {env : Env} {kws : List Keyword} :
    ∀ {snap : List SourceRow} {st : DB} {a : ArticleRow},
      a ∈ (snap.foldl (processSource env kws) st).articles →
      a ∈ st.articles ∨
        ∃ s ∈ snap, ∃ ad ∈ candidates env kws s, a.content = ad.content := by
  intro snap
  induction snap with
  | nil => intro st a h; exact Or.inl h
  | cons s rest ih =>
      intro st a h
      simp only [List.foldl_cons] at h
      rcases ih h with h1 | ⟨t, ht, had⟩
      · rcases processSource_provenance h1 with h2 | ⟨ad, had, hc, _⟩
        · exact Or.inl h2
        · exact Or.inr ⟨s, List.mem_cons_self s rest, ad, had, hc⟩
      · exact Or.inr ⟨t, List.mem_cons_of_mem s ht, had⟩

/-- C7: the 5000-character content cap: the website path stores the
extracted article content truncated after concatenating to at most 5000
characters; the feed path stores the description-plus-summary body
truncated likewise; a body longer than 5000 characters is stored at
exactly 5000 characters, a shorter one unchanged; and consequently every
article the pipeline persists has content of at most 5000 characters. -/
theorem C7_content_cap (env : Env) (url : List Char) (kws : List Keyword)
    (db : DB) :
    (∀ page ad, env.fetchHtml url = some page →
      scrape_website env url kws = some ad →
      ad.content = page.articleContent.take 5000
      ∧ (5000 < page.articleContent.length → ad.content.length = 5000)
      ∧ (page.articleContent.length ≤ 5000 → ad.content = page.articleContent))
    ∧ (∀ ad ∈ scrape_rss env url kws, ∃ e ∈ (env.fetchFeed url).take 10,
        ad.content = (entryRawBody e).take 5000
        ∧ (5000 < (entryRawBody e).length → ad.content.length = 5000)
        ∧ ((entryRawBody e).length ≤ 5000 → ad.content = entryRawBody e))
    ∧ (∀ a ∈ (run_content_scraping env db).articles, a ∉ db.articles →
        a.content.length ≤ 5000) := by
  refine ⟨?_, ?_, ?_⟩
  · intro page ad hp had
    have hc := (scrape_website_some_fields hp had).2.1
    refine ⟨hc, ?_, ?_⟩
    · intro hlong
      rw [hc, List.length_take]
      omega
    · intro hshort
      rw [hc, List.take_of_length_le hshort]
  · intro ad had
    rw [scrape_rss_eq_filterMap] at had
    rcases List.mem_filterMap.mp had with ⟨e, he, hee⟩
    have hc := (entryToData_some_fields hee).2.1
    refine ⟨e, he, hc, ?_, ?_⟩
    · intro hlong
      rw [hc, List.length_take]
      omega
    · intro hshort
      rw [hc, List.take_of_length_le hshort]
  · intro a ha hnot
    rw [run_eq] at ha
    rcases foldl_ps_provenance ha with h | ⟨s, _, ad, had, hc⟩
    · exact absurd h hnot
    · rw [hc]
      exact candidates_content_cap had

/-- Keyword of the concrete C7 scenario. -/
def c7Kw : Keyword := { id := 1, term := chars "python", active := true }

/-- Page of the concrete C7 scenario: the extracted body is 5001
characters long. -/
def c7Page : Page :=
  { textContent := chars "python"
    titleTag := some (chars "T")
    articleContent := List.replicate 5001 'x' }

/-- Environment of the concrete C7 scenario. -/
def c7Env : Env :=
  { fetchHtml := fun _ => some c7Page
    fetchFeed := fun _ => []
    persistFails := fun _ => false
    now := 2 }

/-- Concrete check for C7: a 5001-character extracted body is stored at
exactly 5000 characters. -/
theorem C7_witness :
    ∃ ad, scrape_website c7Env (chars "http://x.com") [c7Kw] = some ad
      ∧ ad.content.length = 5000 := by
  have hz : check_keyword_matches c7Page.textContent [c7Kw] ≠ [] := by decide
  have hfetch : c7Env.fetchHtml (chars "http://x.com") = some c7Page := rfl
  rcases scrape_website_some_of_match hfetch hz with ⟨ad, hsw⟩
  have hlong : 5000 < c7Page.articleContent.length := by
    show 5000 < (List.replicate 5001 'x').length
    rw [List.length_replicate]
    norm_num
  exact ⟨ad, hsw,
    ((C7_content_cap c7Env (chars "http://x.com") [c7Kw]
        { articles := [], articleKeywords := [], sources := [], keywords := [c7Kw]
          nextArticleId := 1 }).1 c7Page ad rfl hsw).2.1 hlong⟩

theorem candidates_keywords_pos {env : Env} {kws : List Keyword}
    {src : SourceRow} {ad : ArticleData} (h : ad ∈ candidates env kws src) :
    ∀ p ∈ ad.keywords, 0 < p.2 := by
  unfold candidates at h
  by_cases ht : src.sourceType = chars "rss"
  · rw [if_pos ht, scrape_rss_eq_filterMap] at h
    rcases List.mem_filterMap.mp h with ⟨e, _, he⟩
    intro p hp
    rw [(entryToData_some_core he).1] at hp
    exact check_score_pos hp
  · rw [if_neg ht] at h
    cases hw : scrape_website env src.url kws with
    | none => rw [hw] at h; cases h
    | some ad2 =>
        rw [hw, Option.toList_some, List.mem_singleton] at h
        subst h
        cases hp : env.fetchHtml src.url with
        | none => unfold scrape_website at hw; rw [hp] at hw; cases hw
        | some page =>
            intro p hpm
            rw [(scrape_website_some_fields hp hw).1] at hpm
            exact check_score_pos hpm

theorem maybeInsert_AK_pos {st : DB} {sid : Nat} {ad : ArticleData}
    (hst : ∀ r ∈ st.articleKeywords, 0 < r.score)
    (had : ∀ p ∈ ad.keywords, 0 < p.2) :
    ∀ r ∈ (maybeInsert st sid ad).articleKeywords, 0 < r.score := by
  by_cases hu : ad.url ∈ urls st
  · rw [maybeInsert_skip hu]; exact hst
  · rw [maybeInsert_insert hu]
    intro r hr
    simp only [List.mem_append, List.mem_map] at hr
    rcases hr with hr | ⟨km, hkm, he⟩
    · exact hst r hr
    · rw [← he]
      exact had km hkm

theorem foldIns_AK_pos {cands : List ArticleData} {st : DB} {sid : Nat}
    (hst : ∀ r ∈ st.articleKeywords, 0 < r.score)
    (hcand : ∀ ad ∈ cands, ∀ p ∈ ad.keywords, 0 < p.2) :
    ∀ r ∈ (foldIns st sid cands).articleKeywords, 0 < r.score := by
  induction cands generalizing st with
  | nil => exact hst
  | cons c rest ih =>
      rw [foldIns_cons]
      exact ih
        (maybeInsert_AK_pos hst (hcand c (List.mem_cons_self c rest)))
        (fun ad had => hcand ad (List.mem_cons_of_mem c had))

theorem processSource_AK_pos {env : Env} {kws : List Keyword} {st : DB}
    {src : SourceRow} (hst : ∀ r ∈ st.articleKeywords, 0 < r.score) :
    ∀ r ∈ (processSource env kws st src).articleKeywords, 0 < r.score := by
  intro r hr
  rw [processSource_articleKeywords] at hr
  by_cases hf : env.persistFails src.id
  · rw [if_pos hf] at hr; exact hst r hr
  · rw [if_neg hf] at hr
    exact foldIns_AK_pos hst (fun ad had => candidates_keywords_pos had) r hr

theorem foldl_ps_AK_pos {env : Env} {kws : List Keyword} :
    ∀ {snap : List SourceRow} {st : DB},
      (∀ r ∈ st.articleKeywords, 0 < r.score) →
      ∀ r ∈ (snap.foldl (processSource env kws) st).articleKeywords, 0 < r.score := by
  intro snap
  induction snap with
  | nil => intro st hst; exact hst
  | cons s rest ih =>
      intro st hst
      simp only [List.foldl_cons]
      exact ih (processSource_AK_pos hst)

/-- C8: every `ArticleKeyword` row the pipeline persists has a strictly
positive relevance score: the matcher only emits strictly positive
scores (at least 1/10, since a matched term occurs at least once), and a
run started from a store whose association rows all have positive scores
leaves only rows with positive scores. -/
theorem C8_persisted_scores_positive (env : Env) (db : DB) :
    (∀ (content : List Char) (kws : List Keyword) (p : Keyword × ℚ),
      p ∈ check_keyword_matches content kws → 0 < p.2)
    ∧ ((∀ r ∈ db.articleKeywords, 0 < r.score) →
        ∀ r ∈ (run_content_scraping env db).articleKeywords, 0 < r.score) := by
  refine ⟨fun content kws p hp => check_score_pos hp, ?_⟩
  intro hdb r hr
  rw [run_eq] at hr
  exact foldl_ps_AK_pos hdb r hr

/-- Keyword of the concrete C8 scenario. -/
def c8Kw : Keyword := { id := 1, term := chars "python", active := true }

/-- Feed source of the concrete C8 scenario. -/
def c8Src : SourceRow :=
  { id := 1, name := chars "F", url := chars "http://f.com/rss"
    sourceType := chars "rss", active := true, lastScraped := none }

/-- Environment of the concrete C8 scenario. -/
def c8Env : Env :=
  { fetchHtml := fun _ => none
    fetchFeed := fun _ => [{ title := chars "python"
                             description := chars "python"
                             summary := chars ""
                             link := some (chars "http://f.com/1")
                             author := none
                             published := none }]
    persistFails := fun _ => false
    now := 1 }

/-- Store of the concrete C8 scenario, holding one association row with
a positive score. -/
def c8Db : DB :=
  { articles := [{ id := 1, title := chars "old", content := chars "o"
                   url := chars "http://old.com", author := none
                   published := none, sourceId := 1 }]
    articleKeywords := [{ articleId := 1, keywordId := 1, score := 1 }]
    sources := [c8Src]
    keywords := [c8Kw]
    nextArticleId := 2 }

/-- Concrete check for C8: after the run (which adds a new association
row for the matching feed entry) every persisted score is positive. -/
theorem C8_witness :
    (run_content_scraping c8Env c8Db).articleKeywords.length = 2
    ∧ ∀ r ∈ (run_content_scraping c8Env c8Db).articleKeywords, 0 < r.score :=
  ⟨by decide,
   (C8_persisted_scores_positive c8Env c8Db).2 (by decide)⟩

/-- C9: the feed path considers at most the first 10 entries in feed
order (`feed.entries[:10]`): the produced list is exactly the filterMap
of the matching entries among the first 10 (so a 15-entry feed
contributes candidates only from its first 10), it never holds more than
10 articles, every produced article has a non-empty keyword match list,
and an entry without keyword matches produces no article at all. -/
theorem C9_feed_entry_limit (env : Env) (rss_url : List Char)
    (kws : List Keyword) :
    scrape_rss env rss_url kws =
      ((env.fetchFeed rss_url).take 10).filterMap (entryToData kws)
    ∧ (scrape_rss env rss_url kws).length ≤ 10
    ∧ (∀ ad ∈ scrape_rss env rss_url kws, ad.keywords ≠ [])
    ∧ (∀ e : FeedEntry,
        check_keyword_matches (e.title ++ [' '] ++ entryRawBody e) kws = [] →
        entryToData kws e = none) := by
  refine ⟨scrape_rss_eq_filterMap env rss_url kws, ?_, ?_, ?_⟩
  · rw [scrape_rss_eq_filterMap]
    exact le_trans (List.length_filterMap_le _ _) (List.length_take_le _ _)
  · intro ad had
    rw [scrape_rss_eq_filterMap] at had
    rcases List.mem_filterMap.mp had with ⟨e, _, he⟩
    exact (entryToData_some_fields he).2.2.2.2
  · exact fun e hz => entryToData_none_of_no_match hz

/-- Keyword of the concrete C9 scenario. -/
def c9Kw : Keyword := { id := 1, term := chars "python", active := true }

/-- Matching entry of the concrete C9 scenario. -/
def c9Entry : FeedEntry :=
  { title := chars "python", description := chars "python"
    summary := chars "", link := some (chars "http://f.com/p")
    author := none, published := none }

/-- Non-matching entry of the concrete C9 scenario. -/
def c9Boring : FeedEntry :=
  { title := chars "golf", description := chars "golf"
    summary := chars "", link := some (chars "http://f.com/g")
    author := none, published := none }

/-- Environment of the concrete C9 scenario: the feed returns 15
entries. -/
def c9Env : Env :=
  { fetchHtml := fun _ => none
    fetchFeed := fun _ => List.replicate 15 c9Entry
    persistFails := fun _ => false
    now := 1 }

/-- Concrete check for C9: of 15 matching entries only 10 become
candidates, and a matchless entry yields no candidate. -/
theorem C9_witness :
    (c9Env.fetchFeed (chars "http://f.com/rss")).length = 15
    ∧ (scrape_rss c9Env (chars "http://f.com/rss") [c9Kw]).length = 10
    ∧ (scrape_rss c9Env (chars "http://f.com/rss") [c9Kw]).length ≤ 10
    ∧ entryToData [c9Kw] c9Boring = none :=
  ⟨by decide, by decide,
   (C9_feed_entry_limit c9Env (chars "http://f.com/rss") [c9Kw]).2.1,
   (C9_feed_entry_limit c9Env (chars "http://f.com/rss") [c9Kw]).2.2.2
     c9Boring (by decide)⟩

/-- C10: a feed entry without a link gets the empty string as its
article URL (`entry.get('link', '')`); since the URL is the dedup key,
once one link-less article row exists every later matching link-less
entry — from any feed — is treated as a duplicate of it and skipped, so
no second empty-URL article is ever inserted. -/
theorem C10_linkless_url_collision (env : Env) :
    (∀ (kws : List Keyword) (e : FeedEntry) (ad : ArticleData),
      entryToData kws e = some ad → e.link = none → ad.url = [])
    ∧ (∀ (st : DB) (sid : Nat) (ad : ArticleData),
        ad.url ∈ urls st → maybeInsert st sid ad = st)
    ∧ (∀ db : DB, (∃ a ∈ db.articles, a.url = []) →
        ∀ a ∈ (run_content_scraping env db).articles,
          a.url = [] → a ∈ db.articles) := by
  refine ⟨?_, ?_, ?_⟩
  · intro kws e ad had hlink
    have h := (entryToData_some_core had).2.2.1
    rw [hlink] at h
    exact h
  · exact fun st sid ad h => maybeInsert_skip h
  · intro db hdb a ha hurl
    rcases run_fresh ha with h | h
    · exact h
    · exfalso
      rcases hdb with ⟨b, hb, hbu⟩
      exact h (by rw [hurl]; exact mem_urls_iff.mpr ⟨b, hb, hbu⟩)

/-- Keyword of the concrete C10 scenario. -/
def c10Kw : Keyword := { id := 1, term := chars "python", active := true }

/-- Link-less matching entry of the concrete C10 scenario. -/
def c10Entry : FeedEntry :=
  { title := chars "python", description := chars "d"
    summary := chars "s", link := none, author := none, published := none }

/-- The already-persisted empty-URL article of the concrete C10
scenario. -/
def c10Row : ArticleRow :=
  { id := 1, title := chars "earlier", content := chars "e", url := []
    author := some [], published := none, sourceId := 1 }

/-- Feed source of the concrete C10 scenario. -/
def c10Src : SourceRow :=
  { id := 1, name := chars "F", url := chars "http://f.com/rss"
    sourceType := chars "rss", active := true, lastScraped := none }

/-- Environment of the concrete C10 scenario. -/
def c10Env : Env :=
  { fetchHtml := fun _ => none
    fetchFeed := fun _ => [c10Entry]
    persistFails := fun _ => false
    now := 1 }

/-- Store of the concrete C10 scenario: one link-less article already
persisted. -/
def c10Db : DB :=
  { articles := [c10Row], articleKeywords := [], sources := [c10Src]
    keywords := [c10Kw], nextArticleId := 2 }

/-- Concrete check for C10: the link-less entry's dict has the empty
URL, and after the run the only empty-URL article is still the
pre-existing one (the new entry was treated as its duplicate). -/
theorem C10_witness :
    (entryToData [c10Kw] c10Entry).map (fun ad => ad.url) = some []
    ∧ c10Row ∈ c10Db.articles
    ∧ (run_content_scraping c10Env c10Db).articles.length = 1 := by
  refine ⟨?_, ?_, by decide⟩
  · cases he : entryToData [c10Kw] c10Entry with
    | none =>
        have hs : (entryToData [c10Kw] c10Entry).isSome = true := by decide
        rw [he] at hs
        cases hs
    | some ad =>
        have hu := (C10_linkless_url_collision c10Env).1 [c10Kw] c10Entry ad he rfl
        simp only [Option.map_some']
        rw [hu]
  · exact (C10_linkless_url_collision c10Env).2.2 c10Db ⟨c10Row, by decide, rfl⟩
      c10Row (by decide) rfl
